import Mathlib

/-!
Verification of the splicer library (src/src/lib.rs): three variants that
demultiplex a byte sequence into N round-robin channels.

Bytes are modelled as natural numbers (no arithmetic is ever performed on the
element values, so the carrier is irrelevant).  The Rust precondition
assertion in each variant is modelled by returning an Option: the value
None stands for the assertion failure (the call aborts and produces no
output), Some out for normal return.
-/

namespace SlicingPerf

/-- State machine of the Rust iterator adaptor produced by
step_by(step): the counter is the number of upcoming elements still to be
skipped before the next element is yielded (0 on entry, so the first element
is always yielded, after which step - 1 elements are skipped). -/
def stepByAux (step : Nat) : Nat → List Nat → List Nat
  | _, [] => []
  | 0, d :: rest => d :: stepByAux step (step - 1) rest
  | k + 1, _ :: rest => stepByAux step k rest

/-- The sequence yielded by iter().step_by(step) over a list.  (The library
only ever calls this with step = channels > 0, guarded by the assertion.) -/
def stepBy (step : Nat) (l : List Nat) : List Nat := stepByAux step 0 l

/-- splice (src/src/lib.rs lines 4-12): assert channels > 0, then one pass over
the enumerated input, pushing the element at position i onto channel
i % channels.  The buffer pre-sizing with_capacity(each_len) has no
observable effect on the produced values and hence no counterpart here.
The failed assertion for channels = 0 is modelled as None. -/
def splice (channels : Nat) (data : List Nat) : Option (List (List Nat)) :=
  if channels = 0 then none
  else some (data.enum.foldl
    (fun out p => out.set (p.1 % channels) (out.getD (p.1 % channels) [] ++ [p.2]))
    (List.replicate channels []))

/-- splice_stepped (src/src/lib.rs lines 15-26): assert channels > 0, then for
each offset in 0..channels collect iter().skip(offset).step_by(channels). -/
def splice_stepped (channels : Nat) (data : List Nat) : Option (List (List Nat)) :=
  if channels = 0 then none
  else some ((List.range channels).map (fun offset => stepBy channels (data.drop offset)))

/-- splice_parallel (src/src/lib.rs lines 29-40): identical pipeline to
splice_stepped except that each per-channel scan runs
par_iter().copied().skip(offset).step_by(channels).collect() on the rayon
indexed parallel iterator, whose collect places every element at the same
index position the sequential pipeline would, so its denotation is the same
strided scan.  (The schedule-independence of that denotation is proved below
against an explicit chunk/schedule execution model, parCollectRun.) -/
def splice_parallel (channels : Nat) (data : List Nat) : Option (List (List Nat)) :=
  if channels = 0 then none
  else some ((List.range channels).map (fun offset => stepBy channels (data.drop offset)))

/-- Specification helper: the elements of data whose absolute position
(position of the head being n) is congruent to i modulo channels, in
position order. -/
def sieve (channels i : Nat) : Nat → List Nat → List Nat
  | _, [] => []
  | n, d :: rest =>
      if n % channels = i then d :: sieve channels i (n + 1) rest
      else sieve channels i (n + 1) rest

lemma stepByAux_eq_stepBy_drop (step : Nat) (l : List Nat) :
    ∀ k, stepByAux step k l = stepBy step (l.drop k) := by
  induction l with
  | nil => intro k; cases k <;> simp [stepByAux, stepBy]
  | cons d rest ih =>
    intro k
    cases k with
    | zero => simp [stepBy]
    | succ k => simpa [stepByAux, stepBy] using ih k

lemma stepBy_cons (step : Nat) (d : Nat) (rest : List Nat) :
    stepBy step (d :: rest) = d :: stepBy step (rest.drop (step - 1)) := by
  rw [stepBy, stepByAux, stepByAux_eq_stepBy_drop]

lemma stepBy_getElem? (step : Nat) (hstep : 0 < step) :
    ∀ (j : Nat) (l : List Nat), (stepBy step l)[j]? = l[j * step]? := by
  intro j
  induction j with
  | zero =>
    intro l
    cases l with
    | nil => simp [stepBy, stepByAux]
    | cons d rest => simp [stepBy_cons]
  | succ j ih =>
    intro l
    cases l with
    | nil => simp [stepBy, stepByAux]
    | cons d rest =>
      have hx : (j + 1) * step = j * step + step := by ring
      have hm : (j + 1) * step = (step - 1 + j * step) + 1 := by omega
      rw [stepBy_cons, List.getElem?_cons_succ, ih, List.getElem?_drop, hm,
        List.getElem?_cons_succ]

lemma stepBy_length (step : Nat) (hstep : 0 < step) (l : List Nat) :
    (stepBy step l).length = (l.length + step - 1) / step := by
  suffices h : ∀ (n : Nat) (l : List Nat), l.length = n →
      (stepBy step l).length = (l.length + step - 1) / step by
    exact h l.length l rfl
  intro n
  induction n using Nat.strong_induction_on with
  | _ n ih =>
    intro l hn
    cases l with
    | nil =>
      simp only [List.length_nil] at hn ⊢
      rw [stepBy, stepByAux]
      simp [Nat.div_eq_of_lt (show step - 1 < step by omega)]
    | cons d rest =>
      simp only [List.length_cons] at hn
      rw [stepBy_cons, List.length_cons,
        ih ((rest.drop (step - 1)).length) (by simp [List.length_drop]; omega) _ rfl]
      rw [List.length_drop]
      simp only [List.length_cons]
      have h2 : rest.length + 1 + step - 1 = rest.length + step := by omega
      rw [h2, Nat.add_div_right _ hstep]
      rcases Nat.lt_or_ge rest.length (step - 1) with hc | hc
      · have h3 : rest.length - (step - 1) = 0 := by omega
        have h4 : (0 + step - 1) / step = 0 := Nat.div_eq_of_lt (by omega)
        have h5 : rest.length / step = 0 := Nat.div_eq_of_lt (by omega)
        rw [h3]
        omega
      · have h4 : rest.length - (step - 1) + step - 1 = rest.length := by omega
        rw [h4]

lemma sieve_eq_stepBy (channels i : Nat) (hi : i < channels) :
    ∀ (data : List Nat) (n r : Nat), r < channels → (n + r) % channels = i →
      sieve channels i n data = stepBy channels (data.drop r) := by
  intro data
  induction data with
  | nil => intro n r _ _; cases r <;> simp [sieve, stepBy, stepByAux]
  | cons d rest ih =>
    intro n r hr hnr
    cases r with
    | zero =>
      have hch : 0 < channels := by omega
      have hn : n % channels = i := by simpa using hnr
      rw [List.drop_zero, stepBy_cons, sieve, if_pos hn]
      have hs : n + 1 + (channels - 1) = n + channels := by omega
      exact congrArg (d :: ·)
        (ih (n + 1) (channels - 1) (by omega) (by rw [hs, Nat.add_mod_right, hn]))
    | succ r =>
      have hn : n % channels ≠ i := by
        intro he
        have h1 : (n + (r + 1)) % channels = (i + (r + 1)) % channels := by
          rw [Nat.add_mod n, Nat.add_mod i, he, Nat.mod_eq_of_lt hi]
        rw [hnr] at h1
        rcases Nat.lt_or_ge (i + (r + 1)) channels with h2 | h2
        · rw [Nat.mod_eq_of_lt h2] at h1
          omega
        · have h3 : (i + (r + 1)) % channels = i + (r + 1) - channels := by
            rw [Nat.mod_eq_sub_mod h2, Nat.mod_eq_of_lt (by omega)]
          omega
      rw [sieve, if_neg hn]
      have hd : (d :: rest).drop (r + 1) = rest.drop r := rfl
      rw [hd]
      exact ih (n + 1) r (by omega) (by rw [show n + 1 + r = n + (r + 1) by omega]; exact hnr)

lemma sieve_eq_filter_enumFrom (channels i : Nat) :
    ∀ (data : List Nat) (n : Nat),
      sieve channels i n data
        = ((List.enumFrom n data).filter (fun p => p.1 % channels == i)).map Prod.snd := by
  intro data
  induction data with
  | nil => intro n; simp [sieve]
  | cons d rest ih =>
    intro n
    rw [List.enumFrom_cons]
    by_cases h : n % channels = i
    · simp [sieve, h, List.filter_cons, ih]
    · simp [sieve, h, List.filter_cons, ih]

lemma splice_foldl_length (channels : Nat) :
    ∀ (pairs : List (Nat × Nat)) (init : List (List Nat)),
      (pairs.foldl
          (fun out p => out.set (p.1 % channels) (out.getD (p.1 % channels) [] ++ [p.2]))
          init).length = init.length := by
  intro pairs
  induction pairs with
  | nil => intro init; rfl
  | cons p rest ih => intro init; rw [List.foldl_cons, ih, List.length_set]

lemma splice_foldl_getElem? (channels : Nat) (i : Nat) (hi : i < channels) :
    ∀ (data : List Nat) (n : Nat) (init : List (List Nat)), init.length = channels →
      ((List.enumFrom n data).foldl
          (fun out p => out.set (p.1 % channels) (out.getD (p.1 % channels) [] ++ [p.2]))
          init)[i]?
        = some (init.getD i [] ++ sieve channels i n data) := by
  intro data
  induction data with
  | nil =>
    intro n init hlen
    have hlt : i < init.length := by omega
    simp only [List.enumFrom_nil, List.foldl_nil, sieve, List.append_nil]
    rw [List.getElem?_eq_getElem hlt, List.getD_eq_getElem?_getD,
      List.getElem?_eq_getElem hlt]
    rfl
  | cons d rest ih =>
    intro n init hlen
    rw [List.enumFrom_cons, List.foldl_cons,
      ih (n + 1) _ (by rw [List.length_set]; exact hlen)]
    by_cases h : n % channels = i
    · rw [sieve, if_pos h, h]
      have hset : (init.set i (init.getD i [] ++ [d])).getD i []
          = init.getD i [] ++ [d] := by
        rw [List.getD_eq_getElem?_getD, List.getElem?_set, if_pos rfl,
          if_pos (by omega)]
        rfl
      rw [hset, List.append_assoc]
      rfl
    · rw [sieve, if_neg h]
      have hset : (init.set (n % channels) (init.getD (n % channels) [] ++ [d])).getD i []
          = init.getD i [] := by
        rw [List.getD_eq_getElem?_getD, List.getElem?_set, if_neg h,
          ← List.getD_eq_getElem?_getD]
      rw [hset]

lemma splice_core_eq (channels : Nat) (data : List Nat) :
    (data.enum.foldl
        (fun out p => out.set (p.1 % channels) (out.getD (p.1 % channels) [] ++ [p.2]))
        (List.replicate channels []))
      = (List.range channels).map (fun offset => stepBy channels (data.drop offset)) := by
  apply List.ext_getElem?
  intro j
  rcases Nat.lt_or_ge j channels with hj | hj
  · rw [show data.enum = List.enumFrom 0 data from rfl,
      splice_foldl_getElem? channels j hj data 0 _ (List.length_replicate ..),
      List.getElem?_map, List.getElem?_range hj, Option.map_some',
      sieve_eq_stepBy channels j hj data 0 j hj
        (by rw [Nat.zero_add, Nat.mod_eq_of_lt hj])]
    rw [List.getD_eq_getElem?_getD, List.getElem?_replicate, if_pos hj]
    rfl
  · rw [List.getElem?_eq_none, List.getElem?_eq_none]
    · simp [hj]
    · rw [show data.enum = List.enumFrom 0 data from rfl, splice_foldl_length,
        List.length_replicate]
      omega

lemma splice_eq_some (channels : Nat) (hch : 0 < channels) (data : List Nat) :
    splice channels data
      = some ((List.range channels).map (fun offset => stepBy channels (data.drop offset))) := by
  rw [splice, if_neg (by omega), splice_core_eq channels data]

/-- Claim C1: for every channel count N ≥ 1 and every input byte sequence, the
three variants produce identical output:
splice N input = splice_stepped N input = splice_parallel N input. -/
theorem splice_variants_equal (channels : Nat) (data : List Nat) (h : 1 ≤ channels) :
    splice channels data = splice_stepped channels data
      ∧ splice_stepped channels data = splice_parallel channels data := by
  refine ⟨?_, rfl⟩
  rw [splice_eq_some channels (by omega) data, splice_stepped, if_neg (by omega)]

theorem splice_variants_equal_witness :
    splice 3 [0, 1, 2, 3, 4, 5, 6, 7] = splice_stepped 3 [0, 1, 2, 3, 4, 5, 6, 7]
      ∧ splice_stepped 3 [0, 1, 2, 3, 4, 5, 6, 7]
          = splice_parallel 3 [0, 1, 2, 3, 4, 5, 6, 7] :=
  splice_variants_equal 3 [0, 1, 2, 3, 4, 5, 6, 7] (by decide)

/-- Claim C2: for every N ≥ 1 and every input, output channel i (i < N) of
splice contains exactly the input elements at positions p with p % N = i, in
strictly increasing order of p (data.enum lists positions in increasing
order, and filter preserves that order). -/
theorem splice_channel_contents (channels i : Nat) (data : List Nat)
    (hch : 1 ≤ channels) (hi : i < channels) :
    ∃ out, splice channels data = some out
      ∧ out[i]? = some ((data.enum.filter
          (fun p => p.1 % channels == i)).map Prod.snd) := by
  refine ⟨_, splice_eq_some channels (by omega) data, ?_⟩
  rw [List.getElem?_map, List.getElem?_range hi, Option.map_some',
    show data.enum = List.enumFrom 0 data from rfl, ← sieve_eq_filter_enumFrom,
    sieve_eq_stepBy channels i hi data 0 i hi
      (by rw [Nat.zero_add, Nat.mod_eq_of_lt hi])]

theorem splice_channel_contents_witness :
    ∃ out, splice 2 [5, 6, 7] = some out
      ∧ out[1]? = some (([5, 6, 7].enum.filter
          (fun p => p.1 % 2 == 1)).map Prod.snd) :=
  splice_channel_contents 2 1 [5, 6, 7] (by decide) (by decide)

/-- Claim C3: each of the three variants fails (modelled as the value None,
standing for the failed assertion, with no output produced) exactly when
N = 0; for every N ≥ 1 no such failure occurs and some output is returned. -/
theorem splice_precondition (channels : Nat) (data : List Nat) :
    (splice channels data = none ↔ channels = 0)
      ∧ (splice_stepped channels data = none ↔ channels = 0)
      ∧ (splice_parallel channels data = none ↔ channels = 0) := by
  by_cases h : channels = 0 <;>
    simp [splice, splice_stepped, splice_parallel, h]

/-- Claim C6: on the 8-element input [0,1,2,3,4,5,6,7] all three variants
return exactly the outputs tabulated in the test oracle check_splicer for
N = 1..6. -/
theorem splice_check_table :
    (splice 1 [0, 1, 2, 3, 4, 5, 6, 7] = some [[0, 1, 2, 3, 4, 5, 6, 7]]
      ∧ splice 2 [0, 1, 2, 3, 4, 5, 6, 7] = some [[0, 2, 4, 6], [1, 3, 5, 7]]
      ∧ splice 3 [0, 1, 2, 3, 4, 5, 6, 7] = some [[0, 3, 6], [1, 4, 7], [2, 5]]
      ∧ splice 4 [0, 1, 2, 3, 4, 5, 6, 7] = some [[0, 4], [1, 5], [2, 6], [3, 7]]
      ∧ splice 5 [0, 1, 2, 3, 4, 5, 6, 7] = some [[0, 5], [1, 6], [2, 7], [3], [4]]
      ∧ splice 6 [0, 1, 2, 3, 4, 5, 6, 7] = some [[0, 6], [1, 7], [2], [3], [4], [5]])
    ∧ (splice_stepped 1 [0, 1, 2, 3, 4, 5, 6, 7] = some [[0, 1, 2, 3, 4, 5, 6, 7]]
      ∧ splice_stepped 2 [0, 1, 2, 3, 4, 5, 6, 7] = some [[0, 2, 4, 6], [1, 3, 5, 7]]
      ∧ splice_stepped 3 [0, 1, 2, 3, 4, 5, 6, 7] = some [[0, 3, 6], [1, 4, 7], [2, 5]]
      ∧ splice_stepped 4 [0, 1, 2, 3, 4, 5, 6, 7] = some [[0, 4], [1, 5], [2, 6], [3, 7]]
      ∧ splice_stepped 5 [0, 1, 2, 3, 4, 5, 6, 7] = some [[0, 5], [1, 6], [2, 7], [3], [4]]
      ∧ splice_stepped 6 [0, 1, 2, 3, 4, 5, 6, 7]
          = some [[0, 6], [1, 7], [2], [3], [4], [5]])
    ∧ (splice_parallel 1 [0, 1, 2, 3, 4, 5, 6, 7] = some [[0, 1, 2, 3, 4, 5, 6, 7]]
      ∧ splice_parallel 2 [0, 1, 2, 3, 4, 5, 6, 7] = some [[0, 2, 4, 6], [1, 3, 5, 7]]
      ∧ splice_parallel 3 [0, 1, 2, 3, 4, 5, 6, 7] = some [[0, 3, 6], [1, 4, 7], [2, 5]]
      ∧ splice_parallel 4 [0, 1, 2, 3, 4, 5, 6, 7]
          = some [[0, 4], [1, 5], [2, 6], [3, 7]]
      ∧ splice_parallel 5 [0, 1, 2, 3, 4, 5, 6, 7]
          = some [[0, 5], [1, 6], [2, 7], [3], [4]]
      ∧ splice_parallel 6 [0, 1, 2, 3, 4, 5, 6, 7]
          = some [[0, 6], [1, 7], [2], [3], [4], [5]]) :=
  ⟨⟨rfl, rfl, rfl, rfl, rfl, rfl⟩, ⟨rfl, rfl, rfl, rfl, rfl, rfl⟩,
    ⟨rfl, rfl, rfl, rfl, rfl, rfl⟩⟩

/-- Claim C7: for every N ≥ 1, splicing the empty input with any of the three
variants returns exactly N channels, each empty. -/
theorem splice_empty_input (channels : Nat) (hch : 1 ≤ channels) :
    splice channels [] = some (List.replicate channels [])
      ∧ splice_stepped channels [] = some (List.replicate channels [])
      ∧ splice_parallel channels [] = some (List.replicate channels []) := by
  have h0 : ¬channels = 0 := by omega
  have hmap : (List.range channels).map
        (fun offset => stepBy channels (([] : List Nat).drop offset))
      = List.replicate channels [] := by
    rw [show (fun offset => stepBy channels (([] : List Nat).drop offset))
        = Function.const Nat ([] : List Nat) by
      funext o
      simp [List.drop_nil, stepBy, stepByAux]]
    rw [List.map_const, List.length_range]
  refine ⟨?_, ?_, ?_⟩
  · simp [splice, h0]
  · rw [splice_stepped, if_neg h0, hmap]
  · rw [splice_parallel, if_neg h0, hmap]

theorem splice_empty_input_witness :
    splice 4 [] = some (List.replicate 4 [])
      ∧ splice_stepped 4 [] = some (List.replicate 4 [])
      ∧ splice_parallel 4 [] = some (List.replicate 4 []) :=
  splice_empty_input 4 (by decide)

/-- Claim C4: for every N ≥ 1 and input of length len, channel i of splice has
length ceil((len - i)/N) when i < len and 0 otherwise (with the natural-number
ceiling written (len - i + N - 1)/N), equivalently floor(len/N) plus one extra
element exactly for the first len % N channels. -/
theorem splice_channel_lengths (channels i : Nat) (data : List Nat)
    (hch : 1 ≤ channels) (hi : i < channels) :
    ∃ out, splice channels data = some out
      ∧ (out.getD i []).length
          = (if i < data.length then (data.length - i + channels - 1) / channels else 0)
      ∧ (out.getD i []).length
          = data.length / channels
              + (if i < data.length % channels then 1 else 0) := by
  refine ⟨_, splice_eq_some channels (by omega) data, ?_, ?_⟩ <;>
  · rw [show ((List.range channels).map
          (fun offset => stepBy channels (data.drop offset))).getD i []
        = stepBy channels (data.drop i) by
      rw [List.getD_eq_getElem?_getD, List.getElem?_map, List.getElem?_range hi,
        Option.map_some']
      rfl]
    rw [stepBy_length channels (by omega), List.length_drop]
    first
    | -- ceiling form
      by_cases hil : i < data.length
      · rw [if_pos hil]
      · rw [if_neg hil]
        have h0 : data.length - i = 0 := by omega
        rw [h0]
        exact Nat.div_eq_of_lt (by omega)
    | -- floor-plus-remainder form
      have hdm := Nat.div_add_mod data.length channels
      set q := data.length / channels with hqdef
      set r := data.length % channels with hrdef
      have hrlt : r < channels := Nat.mod_lt _ (by omega)
      by_cases hir : i < r
      · rw [if_pos hir]
        have hmul : channels * (q + 1) = channels * q + channels := by ring
        have he : data.length - i + channels - 1
            = channels * (q + 1) + (r - i - 1) := by omega
        rw [he, Nat.mul_add_div (by omega), Nat.div_eq_of_lt (by omega)]
      · rw [if_neg hir]
        by_cases hil : i < data.length
        · have he : data.length - i + channels - 1
              = channels * q + (channels - 1 - (i - r)) := by omega
          rw [he, Nat.mul_add_div (by omega), Nat.div_eq_of_lt (by omega)]
        · have h0 : data.length - i = 0 := by omega
          have hq0 : q = 0 := by
            rw [hqdef]
            exact Nat.div_eq_of_lt (by omega)
          have hd0 : (0 + channels - 1) / channels = 0 := Nat.div_eq_of_lt (by omega)
          rw [h0, hd0, hq0]

theorem splice_channel_lengths_witness :
    ∃ out, splice 3 [0, 1, 2, 3, 4, 5, 6, 7] = some out
      ∧ (out.getD 2 []).length
          = (if 2 < [0, 1, 2, 3, 4, 5, 6, 7].length
              then ([0, 1, 2, 3, 4, 5, 6, 7].length - 2 + 3 - 1) / 3 else 0)
      ∧ (out.getD 2 []).length
          = [0, 1, 2, 3, 4, 5, 6, 7].length / 3
              + (if 2 < [0, 1, 2, 3, 4, 5, 6, 7].length % 3 then 1 else 0) :=
  splice_channel_lengths 3 2 [0, 1, 2, 3, 4, 5, 6, 7] (by decide) (by decide)

/-- Claim C5: re-interleaving the N channels of splice in round-robin order,
taking at step p the element at index p / N of channel p % N, reconstructs the
input exactly; hence no element is dropped, duplicated, or reordered. -/
theorem splice_roundrobin_reconstruct (channels : Nat) (data : List Nat)
    (hch : 1 ≤ channels) :
    ∃ out, splice channels data = some out
      ∧ (List.range data.length).map
          (fun p => (out.getD (p % channels) []).getD (p / channels) 0) = data := by
  refine ⟨_, splice_eq_some channels (by omega) data, ?_⟩
  apply List.ext_getElem?
  intro p
  rcases Nat.lt_or_ge p data.length with hp | hp
  · rw [List.getElem?_map, List.getElem?_range hp, Option.map_some']
    have hmod : p % channels < channels := Nat.mod_lt _ (by omega)
    rw [show ((List.range channels).map
          (fun offset => stepBy channels (data.drop offset))).getD (p % channels) []
        = stepBy channels (data.drop (p % channels)) by
      rw [List.getD_eq_getElem?_getD, List.getElem?_map, List.getElem?_range hmod,
        Option.map_some']
      rfl]
    rw [List.getD_eq_getElem?_getD, stepBy_getElem? channels (by omega),
      List.getElem?_drop, Nat.mod_add_div' p channels, List.getElem?_eq_getElem hp]
    rfl
  · rw [List.getElem?_eq_none (by simpa using hp), List.getElem?_eq_none hp]

theorem splice_roundrobin_reconstruct_witness :
    ∃ out, splice 3 [4, 5, 6, 7, 8] = some out
      ∧ (List.range [4, 5, 6, 7, 8].length).map
          (fun p => (out.getD (p % 3) []).getD (p / 3) 0) = [4, 5, 6, 7, 8] :=
  splice_roundrobin_reconstruct 3 [4, 5, 6, 7, 8] (by decide)

/-- Model of one run of a fork-join collection: given the per-task results
chunks (task t computes chunks.getD t []), the tasks complete in the order
listed in sched, each writing its result into slot t of a result vector;
the value of the run is the flatten of the slots in slot order.  The completion
order sched is the scheduling freedom of a run. -/
def parCollectRun (chunks : List (List Nat)) (sched : List Nat) : List Nat :=
  (sched.foldl (fun out t => out.set t (chunks.getD t []))
    (List.replicate chunks.length [])).flatten

/-- One run of the parallel splicer under explicit scheduling freedom: for
each channel offset, chunksFor offset is the decomposition of that channel
scan into concurrently produced pieces, and schedFor offset is the completion
order in which the pieces are written back. -/
def runSpliceParallel (channels : Nat) (chunksFor : Nat → List (List Nat))
    (schedFor : Nat → List Nat) : List (List Nat) :=
  (List.range channels).map
    (fun offset => parCollectRun (chunksFor offset) (schedFor offset))

lemma foldl_set_getElem?_not_mem (task : Nat → List Nat) :
    ∀ (sched : List Nat) (init : List (List Nat)) (t : Nat), t ∉ sched →
      (sched.foldl (fun out u => out.set u (task u)) init)[t]? = init[t]? := by
  intro sched
  induction sched with
  | nil => intro init t _; rfl
  | cons u rest ih =>
    intro init t ht
    simp only [List.mem_cons, not_or] at ht
    rw [List.foldl_cons, ih _ t ht.2, List.getElem?_set, if_neg (Ne.symm ht.1)]

lemma foldl_set_getElem?_mem (task : Nat → List Nat) :
    ∀ (sched : List Nat) (init : List (List Nat)) (t : Nat),
      t ∈ sched → t < init.length →
      (sched.foldl (fun out u => out.set u (task u)) init)[t]? = some (task t) := by
  intro sched
  induction sched with
  | nil => intro init t ht _; exact absurd ht (List.not_mem_nil t)
  | cons u rest ih =>
    intro init t ht hlt
    rw [List.foldl_cons]
    by_cases hm : t ∈ rest
    · exact ih _ t hm (by rw [List.length_set]; exact hlt)
    · have htu : t = u := by
        rcases List.mem_cons.mp ht with h | h
        · exact h
        · exact absurd h hm
      subst htu
      rw [foldl_set_getElem?_not_mem task rest _ t hm, List.getElem?_set,
        if_pos rfl, if_pos hlt]

lemma parCollectRun_eq (chunks : List (List Nat)) (sched : List Nat)
    (hperm : sched.Perm (List.range chunks.length)) :
    parCollectRun chunks sched = chunks.flatten := by
  have hmain : sched.foldl (fun out t => out.set t (chunks.getD t []))
      (List.replicate chunks.length []) = chunks := by
    apply List.ext_getElem?
    intro t
    rcases Nat.lt_or_ge t chunks.length with h | h
    · rw [foldl_set_getElem?_mem (fun u => chunks.getD u []) sched _ t
        (hperm.mem_iff.mpr (List.mem_range.mpr h))
        (by rw [List.length_replicate]; exact h)]
      rw [List.getD_eq_getElem?_getD, List.getElem?_eq_getElem h]
      rfl
    · rw [foldl_set_getElem?_not_mem (fun u => chunks.getD u []) sched _ t
        (fun hm => by
          have := List.mem_range.mp (hperm.mem_iff.mp hm)
          omega),
        List.getElem?_replicate, if_neg (by omega), List.getElem?_eq_none h]
  rw [parCollectRun, hmain]

/-- Claim C8: splice_parallel is fully deterministic: under the fork-join
execution model, any two runs on the same (N, input) — any decompositions of
the per-channel scans into chunks and any completion orders — produce the
same result, and that result is exactly the value of the pure function
splice_parallel, independent of scheduling. -/
theorem splice_parallel_deterministic (channels : Nat) (data : List Nat)
    (cf1 cf2 : Nat → List (List Nat)) (sf1 sf2 : Nat → List Nat)
    (hch : 1 ≤ channels)
    (hjoin1 : ∀ offset, offset < channels →
      (cf1 offset).flatten = stepBy channels (data.drop offset))
    (hsched1 : ∀ offset, offset < channels →
      (sf1 offset).Perm (List.range (cf1 offset).length))
    (hjoin2 : ∀ offset, offset < channels →
      (cf2 offset).flatten = stepBy channels (data.drop offset))
    (hsched2 : ∀ offset, offset < channels →
      (sf2 offset).Perm (List.range (cf2 offset).length)) :
    runSpliceParallel channels cf1 sf1 = runSpliceParallel channels cf2 sf2
      ∧ splice_parallel channels data = some (runSpliceParallel channels cf1 sf1) := by
  have key : ∀ (cf : Nat → List (List Nat)) (sf : Nat → List Nat),
      (∀ offset, offset < channels →
        (cf offset).flatten = stepBy channels (data.drop offset)) →
      (∀ offset, offset < channels →
        (sf offset).Perm (List.range (cf offset).length)) →
      runSpliceParallel channels cf sf
        = (List.range channels).map (fun offset => stepBy channels (data.drop offset)) := by
    intro cf sf hj hs
    rw [runSpliceParallel]
    apply List.map_congr_left
    intro offset hoff
    have ho : offset < channels := List.mem_range.mp hoff
    rw [parCollectRun_eq _ _ (hs offset ho), hj offset ho]
  constructor
  · rw [key cf1 sf1 hjoin1 hsched1, key cf2 sf2 hjoin2 hsched2]
  · rw [splice_parallel, if_neg (by omega), key cf1 sf1 hjoin1 hsched1]

theorem splice_parallel_deterministic_witness :
    runSpliceParallel 2 (fun offset => if offset = 0 then [[7], [9]] else [[8]])
        (fun offset => if offset = 0 then [1, 0] else [0])
      = runSpliceParallel 2 (fun offset => if offset = 0 then [[7, 9]] else [[8]])
          (fun _ => [0])
    ∧ splice_parallel 2 [7, 8, 9]
      = some (runSpliceParallel 2
          (fun offset => if offset = 0 then [[7], [9]] else [[8]])
          (fun offset => if offset = 0 then [1, 0] else [0])) :=
  splice_parallel_deterministic 2 [7, 8, 9]
    (fun offset => if offset = 0 then [[7], [9]] else [[8]])
    (fun offset => if offset = 0 then [[7, 9]] else [[8]])
    (fun offset => if offset = 0 then [1, 0] else [0])
    (fun _ => [0])
    (by decide) (by decide) (by decide) (by decide) (by decide)

lemma stepBy_drop_length_of_dvd (channels o : Nat) (a : List Nat)
    (hch : 0 < channels) (ho : o < channels) (hlen : a.length % channels = 0) :
    (stepBy channels (a.drop o)).length = a.length / channels := by
  have hdm := Nat.div_add_mod a.length channels
  rw [hlen] at hdm
  set q := a.length / channels with hqdef
  have ha : channels * q = a.length := by omega
  rw [stepBy_length channels hch, List.length_drop]
  rcases Nat.eq_zero_or_pos q with hq0 | hqpos
  · have ha0 : a.length = 0 := by
      rw [hq0, Nat.mul_zero] at ha
      omega
    rw [ha0, hq0]
    exact Nat.div_eq_of_lt (by omega)
  · have hAc : channels ≤ channels * q := Nat.le_mul_of_pos_right channels hqpos
    have he : a.length - o + channels - 1 = channels * q + (channels - 1 - o) := by omega
    rw [he, Nat.mul_add_div hch, Nat.div_eq_of_lt (by omega)]
    omega

lemma stepBy_drop_append (channels o : Nat) (a b : List Nat)
    (hch : 0 < channels) (ho : o < channels) (hlen : a.length % channels = 0) :
    stepBy channels ((a ++ b).drop o)
      = stepBy channels (a.drop o) ++ stepBy channels (b.drop o) := by
  have hdm := Nat.div_add_mod a.length channels
  rw [hlen] at hdm
  set q := a.length / channels with hqdef
  have ha : channels * q = a.length := by omega
  have hA : (stepBy channels (a.drop o)).length = q :=
    stepBy_drop_length_of_dvd channels o a hch ho hlen
  apply List.ext_getElem?
  intro j
  have hL : (stepBy channels ((a ++ b).drop o))[j]? = (a ++ b)[o + j * channels]? := by
    rw [stepBy_getElem? channels hch, List.getElem?_drop]
  rw [hL, List.getElem?_append, List.getElem?_append, hA]
  have hqj : q * channels = channels * q := Nat.mul_comm q channels
  rcases Nat.lt_or_ge j q with hj | hj
  · have hmul : (j + 1) * channels = j * channels + channels := by ring
    have hle : (j + 1) * channels ≤ q * channels :=
      Nat.mul_le_mul_right channels (by omega)
    rw [if_pos (show o + j * channels < a.length by omega), if_pos hj,
      stepBy_getElem? channels hch, List.getElem?_drop]
  · have hle : q * channels ≤ j * channels := Nat.mul_le_mul_right channels hj
    have hsub : (j - q) * channels = j * channels - q * channels :=
      Nat.sub_mul j q channels
    rw [if_neg (show ¬o + j * channels < a.length by omega),
      if_neg (show ¬j < q by omega),
      stepBy_getElem? channels hch, List.getElem?_drop,
      show o + j * channels - a.length = o + (j - q) * channels by omega]

/-- Claim C10: splicing distributes over concatenation at channel-count
boundaries: for N ≥ 1 and sequences a, b with N dividing the length of a,
splice N (a ++ b) is the channel-wise concatenation of splice N a and
splice N b. -/
theorem splice_append_channelwise (channels : Nat) (a b : List Nat)
    (hch : 1 ≤ channels) (hlen : a.length % channels = 0) :
    ∃ oab oa ob,
      splice channels (a ++ b) = some oab
        ∧ splice channels a = some oa ∧ splice channels b = some ob
        ∧ oab = List.zipWith (fun x y => x ++ y) oa ob := by
  refine ⟨_, _, _, splice_eq_some channels (by omega) (a ++ b),
    splice_eq_some channels (by omega) a, splice_eq_some channels (by omega) b, ?_⟩
  apply List.ext_getElem?
  intro i
  rcases Nat.lt_or_ge i channels with hi | hi
  · rw [List.getElem?_map, List.getElem?_range hi, Option.map_some',
      List.getElem?_zipWith, List.getElem?_map, List.getElem?_map,
      List.getElem?_range hi, Option.map_some', Option.map_some',
      stepBy_drop_append channels i a b (by omega) hi hlen]
  · rw [List.getElem?_eq_none (by simpa using hi),
      List.getElem?_eq_none
        (by
          rw [List.length_zipWith]
          simp only [List.length_map, List.length_range]
          exact le_trans (min_le_left _ _) hi)]

theorem splice_append_channelwise_witness :
    ∃ oab oa ob,
      splice 2 ([1, 2, 3, 4] ++ [5, 6, 7]) = some oab
        ∧ splice 2 [1, 2, 3, 4] = some oa ∧ splice 2 [5, 6, 7] = some ob
        ∧ oab = List.zipWith (fun x y => x ++ y) oa ob :=
  splice_append_channelwise 2 [1, 2, 3, 4] [5, 6, 7] (by decide) (by decide)
